import Mathlib

/-!
Verification of the keyword-extraction batch scripts (`main.py`, `scripts.py`).

The Python code is shallowly embedded: strings are Lean `String`s (whose
character list we manipulate directly), the docx library is modelled as the
list of paragraph texts a document yields (`none` = read failure), the LLM
client is modelled as an opaque outcome (a reply string, or an exception),
and the file system is a finite directory tree.  `json.loads` is embedded as
an executable recursive-descent parser producing a `JVal`; numeric literals
are kept as uninterpreted lexemes, since the scripts never inspect numeric
values (they only ever call `.strip()` on them, which fails for non-strings).
Character classes (`\b` word characters, upper/lower case) are modelled at
ASCII granularity, which covers every constant the scripts match against.
-/

/-- Characters stripped by Python `str.strip()` with no argument. -/
def pySpace (c : Char) : Bool :=
  c == ' ' || c == '\t' || c == '\n' || c == '\r' || c == '\x0b' || c == '\x0c'

/-- Python `str.strip()` on a character list: drop whitespace at both ends. -/
def pyStripL (cs : List Char) : List Char :=
  ((cs.dropWhile pySpace).reverse.dropWhile pySpace).reverse

/-- Python `str.strip()`. -/
def pyStrip (s : String) : String :=
  (pyStripL s.toList).asString

/-- JSON whitespace skipped by the decoder in `json.loads`. -/
def jsonWs (c : Char) : Bool :=
  c == ' ' || c == '\t' || c == '\n' || c == '\r'

/-- Word characters for the regex `\b` boundary (ASCII `\w`). -/
def isWordChar (c : Char) : Bool :=
  c.isAlphanum || c == '_'

/-- Drop elements until the first one satisfying `p` (which is kept). -/
def dropUntil (p : Char → Bool) : List Char → List Char
  | [] => []
  | c :: cs => if p c then c :: cs else dropUntil p cs

/-- The substring matched by `re.search(r'\x7b.*\x7d', content, re.DOTALL)`:
the span from the first opening brace to the last closing brace, when the
latter lies strictly after the former (leftmost-greedy match). -/
def braceMatchL (cs : List Char) : Option (List Char) :=
  match (dropUntil (fun c => c == '\x7d') ((dropUntil (fun c => c == '\x7b') cs).reverse)).reverse with
  | [] => none
  | c :: rest => some (c :: rest)

/-- `location.split(",")[-1]`: the text after the last comma. -/
def afterLastComma (cs : List Char) : List Char :=
  (cs.reverse.takeWhile (fun c => !(c == ','))).reverse

/-- The five roadway tokens of the regex in `clean_location`, lowercase. -/
def roadTokens : List (List Char) :=
  ["highway".toList, "road".toList, "street".toList, "main".toList, "lane".toList]

/-- Whether the position right after `n` consumed characters of `cs` is a
word boundary (end of input, or a non-word character). -/
def boundaryAfter (cs : List Char) (n : Nat) : Bool :=
  match cs.drop n with
  | [] => true
  | c :: _ => !isWordChar c

/-- Does the lowercase token `t` occur at the head of `cs`, followed by a
word boundary? -/
def roadCond (cs t : List Char) : Bool :=
  ((cs.take t.length).map Char.toLower == t) && boundaryAfter cs t.length

/-- Attempt to match `\b(highway|road|street|main|lane)\b` at the head of
`cs`, given that the boundary before the head holds iff `bdry`.  Returns the
length of the matched token. -/
def tryMatch (bdry : Bool) (cs : List Char) : Option Nat :=
  if bdry then
    roadTokens.findSome? fun t =>
      if roadCond cs t then some t.length else none
  else none

/-- The scan performed by
`re.sub(r"\\b(highway|road|street|main|lane)\\b.*", "", location, flags=re.IGNORECASE)`:
at each position (outside a deleted span) a whole-word roadway token is
tried; on a hit the token and the rest of its line are deleted (`.*` is
greedy but does not cross a newline), which the scan realises by entering a
skipping state that drops characters up to the next newline; the newline
itself is kept and the scan resumes there.  `bdry` records whether the
position sits at a `\\b` word boundary (the previous character, if any, is a
non-word character); it is irrelevant while skipping, since no further match
is attempted inside a deleted span. -/
def cleanScan (bdry skipping : Bool) : List Char → List Char
  | [] => []
  | c :: cs =>
    if skipping then
      if c = '\n' then '\n' :: cleanScan true false cs
      else cleanScan bdry true cs
    else
      match tryMatch bdry (c :: cs) with
      | some _ => cleanScan bdry true cs
      | none => c :: cleanScan (!isWordChar c) false cs

/-- The regex substitution of `clean_location`, started outside any deleted
span, at a word boundary iff `bdry`. -/
def cleanLoc (bdry : Bool) (cs : List Char) : List Char :=
  cleanScan bdry false cs

/-- `clean_location` from `main.py`: empty input yields the empty string;
an input with a comma keeps the text after the last comma, stripped;
otherwise roadway-token clauses are deleted by `cleanLoc` and the result is
stripped. -/
def clean_location (location : String) : String :=
  if location.toList = [] then ""
  else if ',' ∈ location.toList then (pyStripL (afterLastComma location.toList)).asString
  else (pyStripL (cleanLoc true location.toList)).asString

/-- JSON values as produced by `json.loads`.  Numeric literals are kept as
uninterpreted lexemes: the scripts never use a parsed number except to call
`.strip()` on it, which only distinguishes strings from non-strings. -/
inductive JVal where
  | jnull : JVal
  | jbool (b : Bool) : JVal
  | jnum (lexeme : List Char) : JVal
  | jstr (s : List Char) : JVal
  | jarr (elems : List JVal) : JVal
  | jobj (fields : List (List Char × JVal)) : JVal
deriving Repr

/-- Hexadecimal digit value, for `\uXXXX` string escapes. -/
def hexVal (c : Char) : Option Nat :=
  if c.isDigit then some (c.toNat - '0'.toNat)
  else if 'a' ≤ c ∧ c ≤ 'f' then some (c.toNat - 'a'.toNat + 10)
  else if 'A' ≤ c ∧ c ≤ 'F' then some (c.toNat - 'A'.toNat + 10)
  else none

/-- Prepend a decoded character to the result of a string-body parse. -/
def pushChar (c : Char) (o : Option (List Char × List Char)) : Option (List Char × List Char) :=
  o.map fun p => (c :: p.1, p.2)

/-- Parse the body of a JSON string after the opening quote, returning the
decoded content and the remainder after the closing quote. -/
def parseStringBody : List Char → Option (List Char × List Char)
  | [] => none
  | '\\' :: '"' :: r => pushChar '"' (parseStringBody r)
  | '\\' :: '\\' :: r => pushChar '\\' (parseStringBody r)
  | '\\' :: '/' :: r => pushChar '/' (parseStringBody r)
  | '\\' :: 'b' :: r => pushChar '\x08' (parseStringBody r)
  | '\\' :: 'f' :: r => pushChar '\x0c' (parseStringBody r)
  | '\\' :: 'n' :: r => pushChar '\n' (parseStringBody r)
  | '\\' :: 'r' :: r => pushChar '\r' (parseStringBody r)
  | '\\' :: 't' :: r => pushChar '\t' (parseStringBody r)
  | '\\' :: 'u' :: a :: b :: c :: d :: r =>
    match hexVal a, hexVal b, hexVal c, hexVal d with
    | some ha, some hb, some hc, some hd =>
      pushChar (Char.ofNat (((ha * 16 + hb) * 16 + hc) * 16 + hd)) (parseStringBody r)
    | _, _, _, _ => none
  | '\\' :: _ => none
  | '"' :: r => some ([], r)
  | c :: r => pushChar c (parseStringBody r)

/-- Integer part of a JSON number: `0`, or a nonzero digit then digits. -/
def parseIntPart : List Char → Option (List Char × List Char)
  | [] => none
  | c :: r =>
    if c = '0' then some (['0'], r)
    else if c.isDigit then
      match r.span Char.isDigit with
      | (ds, rest) => some (c :: ds, rest)
    else none

/-- Optional fraction part of a JSON number. -/
def parseFrac : List Char → Option (List Char × List Char)
  | '.' :: r =>
    match r.span Char.isDigit with
    | ([], _) => none
    | (ds, rest) => some ('.' :: ds, rest)
  | cs => some ([], cs)

/-- Optional exponent part of a JSON number. -/
def parseExp : List Char → Option (List Char × List Char)
  | [] => some ([], [])
  | e :: r =>
    if e = 'e' ∨ e = 'E' then
      match (match r with
             | '+' :: t => (['+'], t)
             | '-' :: t => (['-'], t)
             | t => (([] : List Char), t)) with
      | (sgn, r₂) =>
        match r₂.span Char.isDigit with
        | ([], _) => none
        | (ds, rest) => some (e :: (sgn ++ ds), rest)
    else some ([], e :: r)

/-- Parse a JSON number token (sign, integer, fraction, exponent). -/
def parseNumber (cs : List Char) : Option (JVal × List Char) :=
  match (match cs with
         | '-' :: t => (['-'], t)
         | t => (([] : List Char), t)) with
  | (neg, cs₁) =>
    match parseIntPart cs₁ with
    | none => none
    | some (ip, r₁) =>
      match parseFrac r₁ with
      | none => none
      | some (fp, r₂) =>
        match parseExp r₂ with
        | none => none
        | some (ep, r₃) => some (.jnum (neg ++ ip ++ fp ++ ep), r₃)

mutual

/-- Parse one JSON value after skipping whitespace (fueled recursion). -/
def parseValue : Nat → List Char → Option (JVal × List Char)
  | 0, _ => none
  | fuel + 1, cs =>
    match cs.dropWhile jsonWs with
    | [] => none
    | c :: r =>
      if c = 'n' then
        match r with
        | 'u' :: 'l' :: 'l' :: r₂ => some (.jnull, r₂)
        | _ => none
      else if c = 't' then
        match r with
        | 'r' :: 'u' :: 'e' :: r₂ => some (.jbool true, r₂)
        | _ => none
      else if c = 'f' then
        match r with
        | 'a' :: 'l' :: 's' :: 'e' :: r₂ => some (.jbool false, r₂)
        | _ => none
      else if c = '"' then
        (parseStringBody r).map fun p => (.jstr p.1, p.2)
      else if c = '[' then
        match r.dropWhile jsonWs with
        | ']' :: r₂ => some (.jarr [], r₂)
        | r₂ => (parseElems fuel r₂).map fun p => (.jarr p.1, p.2)
      else if c = '\x7b' then
        match r.dropWhile jsonWs with
        | '\x7d' :: r₂ => some (.jobj [], r₂)
        | r₂ => (parseMembers fuel r₂).map fun p => (.jobj p.1, p.2)
      else if c = '-' ∨ c.isDigit then
        parseNumber (c :: r)
      else none

/-- Parse the elements of a nonempty JSON array (fueled recursion). -/
def parseElems : Nat → List Char → Option (List JVal × List Char)
  | 0, _ => none
  | fuel + 1, cs =>
    match parseValue fuel cs with
    | none => none
    | some (v, r) =>
      match r.dropWhile jsonWs with
      | ',' :: r₂ => (parseElems fuel r₂).map fun p => (v :: p.1, p.2)
      | ']' :: r₂ => some ([v], r₂)
      | _ => none

/-- Parse the members of a nonempty JSON object (fueled recursion). -/
def parseMembers : Nat → List Char → Option (List (List Char × JVal) × List Char)
  | 0, _ => none
  | fuel + 1, cs =>
    match cs.dropWhile jsonWs with
    | '"' :: r =>
      match parseStringBody r with
      | none => none
      | some (k, r₁) =>
        match r₁.dropWhile jsonWs with
        | ':' :: r₂ =>
          match parseValue fuel r₂ with
          | none => none
          | some (v, r₃) =>
            match r₃.dropWhile jsonWs with
            | ',' :: r₄ => (parseMembers fuel r₄).map fun p => ((k, v) :: p.1, p.2)
            | '\x7d' :: r₄ => some ([(k, v)], r₄)
            | _ => none
        | _ => none
    | _ => none

end

/-- `json.loads` on a character list: parse one value, then require only
whitespace to remain. -/
def json_loads_chars (cs : List Char) : Option JVal :=
  match parseValue (cs.length + 1) cs with
  | some (v, rest) => if rest.dropWhile jsonWs = [] then some v else none
  | none => none

/-- `json.loads` on a string. -/
def json_loads (s : String) : Option JVal :=
  json_loads_chars s.toList

/-- The five metadata fields returned by `analyze_ir_content`. -/
structure Metadata where
  state : String
  location : String
  department : String
  audit_year : String
  financial_year : String
deriving Repr, DecidableEq

/-- The all-default sentinel tuple returned on every failure path. -/
def defaults : Metadata :=
  ⟨"Unknown", "Unknown", "Unknown Department", "Unknown", "Unknown"⟩

/-- Python `dict.get(k)` on the field list of a JSON object.  A dict built by
`json.loads` keeps the last occurrence of a duplicated key, hence the search
from the rear. -/
def pyFind (fs : List (List Char × JVal)) (k : List Char) : Option JVal :=
  (fs.reverse.find? fun p => p.1 == k).map fun p => p.2

/-- Python `dict.get(k, dflt)`. -/
def pyGet (fs : List (List Char × JVal)) (k : List Char) (dflt : JVal) : JVal :=
  (pyFind fs k).getD dflt

/-- Python `.strip()` applied to a JSON value: succeeds only on strings;
on any other value it raises `AttributeError` (modelled as `none`). -/
def stripVal : JVal → Option (List Char)
  | .jstr s => some (pyStripL s)
  | _ => none

/-- The field-extraction block of `analyze_ir_content`: look up each of the
five keys with its sentinel default, call `.strip()` on each value (raising
for non-strings, modelled as `none`), and post-process the location through
`clean_location`.  Looking up fields on a non-dict value raises
`AttributeError`, likewise modelled as `none`. -/
def extractFields : JVal → Option Metadata
  | .jobj fs =>
    match stripVal (pyGet fs "state".toList (.jstr "Unknown".toList)) with
    | none => none
    | some st =>
      match stripVal (pyGet fs "location".toList (.jstr "Unknown".toList)) with
      | none => none
      | some lo =>
        match stripVal (pyGet fs "department".toList (.jstr "Unknown Department".toList)) with
        | none => none
        | some de =>
          match stripVal (pyGet fs "audit_conducted_year".toList (.jstr "Unknown".toList)) with
          | none => none
          | some ay =>
            match stripVal (pyGet fs "financial_year".toList (.jstr "Unknown".toList)) with
            | none => none
            | some fy =>
              some ⟨st.asString, clean_location lo.asString, de.asString, ay.asString, fy.asString⟩
  | _ => none

/-- Outcome of the single `llm.invoke` call: a reply string, or any raised
exception (network failure, client error, non-string content, ...). -/
inductive ModelOutcome where
  | ok (reply : String) : ModelOutcome
  | err : ModelOutcome

/-- `analyze_ir_content` from `main.py`.  Empty text short-circuits to the
sentinel tuple without touching the model.  Otherwise the model is invoked
exactly once (the returned Boolean records that the call was made).  The
stripped reply is parsed strictly; if `json.loads` raises, the first
brace-greedy substring is parsed instead; any exception on these paths —
model failure, fallback `json.loads` failure, `.get` on a non-dict,
`.strip()` on a non-string — is caught by the enclosing handlers, which
return the sentinel tuple. -/
def analyze_ir_content (docText : String) (model : ModelOutcome) : Metadata × Bool :=
  if docText = "" then (defaults, false)
  else
    match model with
    | .err => (defaults, true)
    | .ok reply =>
      let content := pyStripL reply.toList
      match json_loads_chars content with
      | some v => ((extractFields v).getD defaults, true)
      | none =>
        match braceMatchL content with
        | some sub =>
          match json_loads_chars sub with
          | some v => ((extractFields v).getD defaults, true)
          | none => (defaults, true)
        | none => (defaults, true)

/-- `MAX_TEXT_LENGTH` from the configuration block of `main.py`. -/
def MAX_TEXT_LENGTH : Nat := 5000

/-- Join paragraph lines with a newline separator (`"\n".join(lines)`). -/
def intercalateNL : List (List Char) → List Char
  | [] => []
  | [l] => l
  | l :: ls => l ++ '\n' :: intercalateNL ls

/-- `extract_text_from_docx` from `main.py`.  A document is modelled by the
list of its paragraph texts; `none` models any exception while reading, which
the function swallows, returning the empty string.  Non-empty stripped
paragraphs are joined with newlines and the result is cut to
`MAX_TEXT_LENGTH` characters. -/
def extract_text_from_docx (doc : Option (List String)) : String :=
  match doc with
  | none => ""
  | some paras =>
    let lines := (paras.map pyStrip).filter fun l => l ≠ ""
    let extracted := intercalateNL (lines.map String.toList)
    if MAX_TEXT_LENGTH < extracted.length then (extracted.take MAX_TEXT_LENGTH).asString
    else extracted.asString

/-- A directory: its plain files and its named subdirectories. -/
inductive DirTree where
  | mk (files : List String) (subdirs : List (String × DirTree)) : DirTree

/-- The plain files of a directory. -/
def DirTree.files : DirTree → List String
  | .mk fs _ => fs

/-- The named subdirectories of a directory. -/
def DirTree.subdirs : DirTree → List (String × DirTree)
  | .mk _ sd => sd

/-- `os.listdir` on the input folder: the names of its immediate entries,
files and subdirectories alike (no recursion). -/
def listdirEntries (t : DirTree) : List String :=
  t.files ++ t.subdirs.map Prod.fst

/-- The case-insensitive extension filter `f.lower().endswith(".docx")`. -/
def isDocx (f : String) : Bool :=
  List.isSuffixOf ".docx".toList (f.toList.map Char.toLower)

mutual

/-- `os.walk` (top-down): the root's files first, then each subtree. -/
def walkT (root : String) : DirTree → List (String × List String)
  | .mk fs subs => (root, fs) :: walkSubs root subs

/-- Walk a list of named subdirectories in order. -/
def walkSubs (root : String) : List (String × DirTree) → List (String × List String)
  | [] => []
  | (name, t) :: rest => walkT (root ++ "/" ++ name) t ++ walkSubs root rest

end

/-- The `.docx` files encountered by the walk loop of `main_process`, as
(full path, file name) pairs in processing order. -/
def walkDocx (root : String) (t : DirTree) : List (String × String) :=
  (walkT root t).flatMap fun p => (p.2.filter isDocx).map fun f => (p.1 ++ "/" ++ f, f)

/-- One row of the results spreadsheet. -/
structure Row where
  filename : String
  state : String
  location : String
  department : String
  audit_year : String
  financial_year : String
deriving Repr, DecidableEq

/-- The blank placeholder row written when no documents are found and by the
top-level crash handler. -/
def blankRow : Row :=
  ⟨"", "", "", "", "", ""⟩

/-- Process one document: extract its text (the environment `env` gives the
paragraphs behind a path, `none` for unreadable files) and infer metadata,
where `model` gives the model-call outcome for a given document text. -/
def processFile (env : String → Option (List String)) (model : String → ModelOutcome)
    (pf : String × String) : Row :=
  let text := extract_text_from_docx (env pf.1)
  let md := (analyze_ir_content text (model text)).1
  ⟨pf.2, md.state, md.location, md.department, md.audit_year, md.financial_year⟩

/-- The per-document loop of `main_process`: after appending each new row to
the accumulated table, the whole table is written to the results file.  The
returned list is the sequence of tables written to disk, in order. -/
def mainLoop (env : String → Option (List String)) (model : String → ModelOutcome) :
    List (String × String) → List Row → List (List Row)
  | [], _ => []
  | pf :: rest, rows =>
    let rows' := rows ++ [processFile env model pf]
    rows' :: mainLoop env model rest rows'

/-- `main_process` from `main.py`, as the sequence of tables written to the
results file.  The initial guard filters `os.listdir` of the input folder —
top-level entries only — and writes a single blank placeholder row when no
entry matches; only otherwise does the recursive walk run.  If the walk
processes no file, a zero-row table is written at the end (`if not rows`). -/
def main_process (env : String → Option (List String)) (model : String → ModelOutcome)
    (root : String) (t : DirTree) : List (List Row) :=
  if (listdirEntries t).filter isDocx = [] then [[blankRow]]
  else
    mainLoop env model (walkDocx root t) [] ++
      (if walkDocx root t = [] then [([] : List Row)] else [])

/-- The `__main__` block of `main.py`: an empty results table is created
first when the file does not exist, then `main_process` runs; if any
exception escapes (modelled as a crash after `crashAfter` writes), the
handler overwrites the results file with a single blank placeholder row.
The value is the full sequence of disk states of the results file. -/
def run_crashing (env : String → Option (List String)) (model : String → ModelOutcome)
    (root : String) (t : DirTree) (fileExists : Bool) (crashAfter : Option Nat) :
    List (List Row) :=
  let w := (if fileExists then [] else [([] : List Row)]) ++ main_process env model root t
  match crashAfter with
  | none => w
  | some k => w.take k ++ [[blankRow]]

/-- The case-sensitive filter `f.endswith(".docx")` used by `scripts.py`. -/
def endsDocxCS (f : String) : Bool :=
  List.isSuffixOf ".docx".toList f.toList

/-- `os.path.splitext(f)[0]` for a plain file name: cut the last dot-suffix,
unless every character before the last dot is itself a dot (so `.bashrc`
keeps its name). -/
def splitextStemL (cs : List Char) : List Char :=
  match dropUntil (fun c => c == '.') cs.reverse with
  | [] => cs
  | _ :: before =>
    if before.any (fun c => !(c == '.')) then before.reverse else cs

/-- `os.path.splitext(f)[0]` on a string. -/
def splitextStem (f : String) : String :=
  (splitextStemL f.toList).asString

/-- Python `sorted(set(xs))`: distinct elements in increasing order. -/
def sortDedup (xs : List String) : List String :=
  List.insertionSort (· ≤ ·) xs.dedup

/-- `scripts.py`, given the input-folder listing and the first column of the
results file: filter the listing to `.docx` files, take stems of both lists,
emit the two sorted asymmetric differences (the two workbook sheets), and
copy every input file whose stem is missing from the results.  Returns
(missing sheet, extra sheet, copied files). -/
def reconciler (inputListing : List String) (resultsCol : List String) :
    List String × List String × List String :=
  let input_files := inputListing.filter endsDocxCS
  let input_stems := input_files.map splitextStem
  let processed_stems := resultsCol.map splitextStem
  let missing := sortDedup (input_stems.filter fun s => s ∉ processed_stems)
  let extra := sortDedup (processed_stems.filter fun s => s ∉ input_stems)
  let copied := input_files.filter fun f => splitextStem f ∈ missing
  (missing, extra, copied)

/-- Split a character list at its newline characters; a list with `k`
newlines yields `k + 1` newline-free segments. -/
def splitNL : List Char → List (List Char)
  | [] => [[]]
  | c :: cs =>
    if c = '\n' then [] :: splitNL cs
    else
      match splitNL cs with
      | [] => [[c]]
      | l :: ls => (c :: l) :: ls

/-- The word-boundary flag that holds right after the prefix `u` of a scan
that started with flag `b`. -/
def junctionFlag (b : Bool) (u : List Char) : Bool :=
  match u.getLast? with
  | none => b
  | some c => !isWordChar c

/-- What deleting a roadway clause does to one newline-free segment: either
no whole-word roadway token matches at any position of the segment (no split
point `u ++ rest` admits a match) and the segment is kept unchanged, or the
segment splits as `u ++ rest` at the first position where a whole-word
roadway token (with the boundary before it holding) starts `rest` — no
earlier split point admits a match — and everything from the token on is
removed. -/
def roadClauseRemoved (line out : List Char) : Prop :=
  (out = line ∧
    ∀ u rest, line = u ++ rest → tryMatch (junctionFlag true u) rest = none) ∨
    ∃ u rest, line = u ++ rest ∧ (tryMatch (junctionFlag true u) rest).isSome ∧
      (∀ u' rest', line = u' ++ rest' → u'.length < u.length →
        tryMatch (junctionFlag true u') rest' = none) ∧
      out = u

/-- Characters that can begin a JSON value; `json.loads` fails immediately
when the first non-whitespace character is not one of these. -/
def jsonStarter (c : Char) : Bool :=
  c == 'n' || c == 't' || c == 'f' || c == '"' || c == '[' || c == '\x7b' || c == '-' || c.isDigit

/-- Two character lists with the same `asString` are equal. -/
theorem asString_inj (a b : List Char) (h : a.asString = b.asString) : a = b := by
  have := congrArg String.toList h
  simpa using this

/-- C4: for a document whose extracted text is empty, `analyze_ir_content`
returns exactly the five default sentinels and does not invoke the model
(the Boolean component of the embedding records whether `llm.invoke` ran),
whatever the model would have replied. -/
theorem c4_empty_text_short_circuit (model : ModelOutcome) :
    analyze_ir_content "" model = (defaults, false) ∧
    defaults = ⟨"Unknown", "Unknown", "Unknown Department", "Unknown", "Unknown"⟩ := by
  exact ⟨rfl, rfl⟩

/-- C8: whenever `main_process` is interrupted by an exception after any
number `k` of disk writes, the handler of the `__main__` block makes the
final on-disk state of the results file exactly one blank placeholder row,
regardless of the environment, the model, the input tree, how many documents
had been processed, and whether the results file pre-existed. -/
theorem c8_crash_overwrite (env : String → Option (List String))
    (model : String → ModelOutcome) (root : String) (t : DirTree)
    (fileExists : Bool) (k : Nat) :
    (run_crashing env model root t fileExists (some k)).getLast? = some [blankRow] := by
  simp [run_crashing]

/-- C6: text extraction never returns more than `MAX_TEXT_LENGTH` (= 5000)
characters; a read failure yields the empty string; and for a readable
document the result is the newline-join of the non-empty stripped paragraph
texts, returned verbatim iff that join fits in the limit and cut to the
5000-character prefix (hence different from the join) iff it exceeds it. -/
theorem c6_extract_truncation (doc : Option (List String)) :
    (extract_text_from_docx doc).length ≤ MAX_TEXT_LENGTH ∧
    extract_text_from_docx none = "" ∧
    ∀ paras, doc = some paras →
      ((intercalateNL (((paras.map pyStrip).filter fun l => l ≠ "").map String.toList)).length ≤
          MAX_TEXT_LENGTH →
        extract_text_from_docx doc =
          (intercalateNL (((paras.map pyStrip).filter fun l => l ≠ "").map String.toList)).asString) ∧
      (MAX_TEXT_LENGTH <
          (intercalateNL (((paras.map pyStrip).filter fun l => l ≠ "").map String.toList)).length →
        extract_text_from_docx doc =
          ((intercalateNL (((paras.map pyStrip).filter fun l => l ≠ "").map String.toList)).take
            MAX_TEXT_LENGTH).asString ∧
        extract_text_from_docx doc ≠
          (intercalateNL (((paras.map pyStrip).filter fun l => l ≠ "").map String.toList)).asString) := by
  refine ⟨?_, rfl, ?_⟩
  · match doc with
    | none => simp [extract_text_from_docx]
    | some paras =>
      simp only [extract_text_from_docx]
      split
      · next h =>
        have : ((intercalateNL (((paras.map pyStrip).filter fun l => l ≠ "").map
            String.toList)).take MAX_TEXT_LENGTH).asString.length =
            ((intercalateNL (((paras.map pyStrip).filter fun l => l ≠ "").map
            String.toList)).take MAX_TEXT_LENGTH).length := rfl
        rw [this, List.length_take]
        omega
      · next h =>
        push_neg at h
        exact h
  · intro paras hd
    subst hd
    constructor
    · intro hle
      simp only [extract_text_from_docx]
      rw [if_neg (by omega)]
    · intro hgt
      simp only [extract_text_from_docx]
      rw [if_pos hgt]
      refine ⟨rfl, fun hcontra => ?_⟩
      have := asString_inj _ _ hcontra
      have hlen := congrArg List.length this
      rw [List.length_take] at hlen
      omega

/-- C6 witness: a concrete readable document; the blank paragraph is
dropped, the others are stripped and joined with a newline, no truncation. -/
theorem c6_extract_truncation_witness :
    extract_text_from_docx (some ["a ", "", " b"]) = "a\nb" := by
  have h := ((c6_extract_truncation (some ["a ", "", " b"])).2.2 _ rfl).1 (by decide)
  rw [h]
  rfl

/-- Helper: with non-empty text and a successful strict parse, the parsed
value is field-extracted (any extraction exception falling back to the
sentinel tuple), and the model was called. -/
theorem analyze_ok_strict (docText reply : String) (hne : docText ≠ "") (v : JVal)
    (h : json_loads_chars (pyStripL reply.toList) = some v) :
    analyze_ir_content docText (.ok reply) = ((extractFields v).getD defaults, true) := by
  simp only [analyze_ir_content, if_neg hne]
  rw [h]

/-- Helper: with non-empty text, a failed strict parse and a successful
fallback parse of the brace-delimited substring, the fallback value is
field-extracted. -/
theorem analyze_ok_fallback (docText reply : String) (hne : docText ≠ "")
    (sub : List Char) (v : JVal)
    (h1 : json_loads_chars (pyStripL reply.toList) = none)
    (h2 : braceMatchL (pyStripL reply.toList) = some sub)
    (h3 : json_loads_chars sub = some v) :
    analyze_ir_content docText (.ok reply) = ((extractFields v).getD defaults, true) := by
  simp only [analyze_ir_content, if_neg hne]
  simp only [h1, h2, h3]

/-- Helper: with non-empty text, when the strict parse fails and the
fallback also fails (no brace-delimited substring, or a substring that
does not parse), the sentinel tuple is returned. -/
theorem analyze_ok_failall (docText reply : String) (hne : docText ≠ "")
    (h1 : json_loads_chars (pyStripL reply.toList) = none)
    (h2 : ∀ sub, braceMatchL (pyStripL reply.toList) = some sub →
      json_loads_chars sub = none) :
    analyze_ir_content docText (.ok reply) = (defaults, true) := by
  cases hb : braceMatchL (pyStripL reply.toList) with
  | none =>
    simp only [analyze_ir_content, if_neg hne]
    simp only [h1, hb]
  | some sub =>
    simp only [analyze_ir_content, if_neg hne]
    simp only [h1, hb, h2 sub hb]

/-- C5: metadata inference never propagates an error.  For non-empty text it
always returns a five-tuple together with the call flag: an exception in the
model call yields exactly the sentinel tuple with no retry (the single
consumed outcome is the embedding of the one `llm.invoke` call), every
outcome flips the call flag exactly once, and a reply on which both the
strict parse and the brace fallback fail also yields the sentinel tuple. -/
theorem c5_no_error_propagation (docText : String) (hne : docText ≠ "") :
    analyze_ir_content docText .err = (defaults, true) ∧
    (∀ m, (analyze_ir_content docText m).2 = true) ∧
    ∀ reply, json_loads_chars (pyStripL reply.toList) = none →
      (∀ sub, braceMatchL (pyStripL reply.toList) = some sub →
        json_loads_chars sub = none) →
      analyze_ir_content docText (.ok reply) = (defaults, true) := by
  refine ⟨by simp only [analyze_ir_content, if_neg hne], ?_, ?_⟩
  · intro m
    cases m with
    | err => simp only [analyze_ir_content, if_neg hne]
    | ok reply =>
      cases hJ : json_loads_chars (pyStripL reply.toList) with
      | some v => rw [analyze_ok_strict docText reply hne v hJ]
      | none =>
        cases hB : braceMatchL (pyStripL reply.toList) with
        | none =>
          rw [analyze_ok_failall docText reply hne hJ
            (fun sub h => by rw [hB] at h; cases h)]
        | some sub =>
          cases hS : json_loads_chars sub with
          | some v => rw [analyze_ok_fallback docText reply hne sub v hJ hB hS]
          | none =>
            rw [analyze_ok_failall docText reply hne hJ ?_]
            intro sub' h'
            rw [hB] at h'
            injection h' with h''
            rw [← h'']
            exact hS
  · intro reply h1 h2
    exact analyze_ok_failall docText reply hne h1 h2

/-- C5 witness: with non-empty text, a model-call exception and an
unparseable reply each produce exactly the sentinel tuple. -/
theorem c5_no_error_propagation_witness :
    analyze_ir_content "some text" .err = (defaults, true) ∧
    analyze_ir_content "some text" (.ok "no json here") = (defaults, true) := by
  have h := c5_no_error_propagation "some text" (by decide)
  refine ⟨h.1, h.2.2 "no json here" rfl ?_⟩
  intro sub hsub
  rw [show braceMatchL (pyStripL (String.toList "no json here")) = none from rfl] at hsub
  cases hsub

/-- Helper: when `.strip()` succeeds on a JSON value, the value is a string. -/
theorem stripVal_some (v : JVal) (s : List Char) (h : stripVal v = some s) :
    ∃ s₀, v = .jstr s₀ := by
  cases v with
  | jstr s₀ => exact ⟨s₀, rfl⟩
  | jnull => cases h
  | jbool b => cases h
  | jnum l => cases h
  | jarr l => cases h
  | jobj l => cases h

/-- Helper: if field extraction succeeds, then each of the five keys looked
up with its sentinel default produced a string value. -/
theorem extractFields_some_strings (fs : List (List Char × JVal)) (m : Metadata)
    (h : extractFields (.jobj fs) = some m) :
    (∃ s, pyGet fs "state".toList (.jstr "Unknown".toList) = .jstr s) ∧
    (∃ s, pyGet fs "location".toList (.jstr "Unknown".toList) = .jstr s) ∧
    (∃ s, pyGet fs "department".toList (.jstr "Unknown Department".toList) = .jstr s) ∧
    (∃ s, pyGet fs "audit_conducted_year".toList (.jstr "Unknown".toList) = .jstr s) ∧
    (∃ s, pyGet fs "financial_year".toList (.jstr "Unknown".toList) = .jstr s) := by
  unfold extractFields at h
  cases hs1 : stripVal (pyGet fs "state".toList (.jstr "Unknown".toList)) with
  | none => simp only [hs1] at h; exact Option.noConfusion h
  | some st =>
  simp only [hs1] at h
  cases hs2 : stripVal (pyGet fs "location".toList (.jstr "Unknown".toList)) with
  | none => simp only [hs2] at h; exact Option.noConfusion h
  | some lo =>
  simp only [hs2] at h
  cases hs3 : stripVal (pyGet fs "department".toList (.jstr "Unknown Department".toList)) with
  | none => simp only [hs3] at h; exact Option.noConfusion h
  | some de =>
  simp only [hs3] at h
  cases hs4 : stripVal (pyGet fs "audit_conducted_year".toList (.jstr "Unknown".toList)) with
  | none => simp only [hs4] at h; exact Option.noConfusion h
  | some ay =>
  simp only [hs4] at h
  cases hs5 : stripVal (pyGet fs "financial_year".toList (.jstr "Unknown".toList)) with
  | none => simp only [hs5] at h; exact Option.noConfusion h
  | some fy =>
  exact ⟨stripVal_some _ _ hs1, stripVal_some _ _ hs2, stripVal_some _ _ hs3,
    stripVal_some _ _ hs4, stripVal_some _ _ hs5⟩

/-- C10: if the model reply parses (strictly) as a JSON object in which one
of the five expected keys is present with a non-string value, the result is
the all-default sentinel tuple — the string values of the other fields are
discarded too, because the per-field `.strip()` raises and the outer
exception handler replaces the whole tuple. -/
theorem c10_nonstring_field (docText reply : String) (hne : docText ≠ "")
    (fs : List (List Char × JVal))
    (hparse : json_loads_chars (pyStripL reply.toList) = some (.jobj fs))
    (k : List Char)
    (hk : k ∈ ["state".toList, "location".toList, "department".toList,
      "audit_conducted_year".toList, "financial_year".toList])
    (v : JVal) (hfound : pyFind fs k = some v) (hnotstr : ∀ s, v ≠ JVal.jstr s) :
    analyze_ir_content docText (.ok reply) = (defaults, true) := by
  have hget : ∀ d, pyGet fs k d = v := by
    intro d
    simp [pyGet, hfound]
  have hE : extractFields (.jobj fs) = none := by
    cases hEq : extractFields (.jobj fs) with
    | none => rfl
    | some m =>
      exfalso
      have hstr := extractFields_some_strings fs m hEq
      simp only [List.mem_cons, List.not_mem_nil, or_false] at hk
      rcases hk with hk | hk | hk | hk | hk <;> subst hk
      · obtain ⟨s, hs⟩ := hstr.1
        rw [hget] at hs
        exact hnotstr s hs
      · obtain ⟨s, hs⟩ := hstr.2.1
        rw [hget] at hs
        exact hnotstr s hs
      · obtain ⟨s, hs⟩ := hstr.2.2.1
        rw [hget] at hs
        exact hnotstr s hs
      · obtain ⟨s, hs⟩ := hstr.2.2.2.1
        rw [hget] at hs
        exact hnotstr s hs
      · obtain ⟨s, hs⟩ := hstr.2.2.2.2
        rw [hget] at hs
        exact hnotstr s hs
  rw [analyze_ok_strict docText reply hne _ hparse, hE]
  rfl

/-- C10 witness: a strictly-parsing reply whose `state` is JSON `null` while
`location` carries a valid string; the whole result collapses to the
sentinel tuple and the location string is discarded. -/
theorem c10_nonstring_field_witness :
    analyze_ir_content "doc"
      (.ok "\x7b\"state\": null, \"location\": \"Pune\"\x7d") = (defaults, true) := by
  refine c10_nonstring_field "doc" _ (by decide) _ rfl "state".toList (by simp) JVal.jnull ?_ ?_
  · rfl
  · intro s h
    cases h

/-- Helper: when the five keys (with their sentinel defaults) all carry
string values, field extraction yields exactly those values stripped, with
the location additionally passed through `clean_location`. -/
theorem extractFields_strs (fs : List (List Char × JVal)) (st lo de ay fy : List Char)
    (h1 : pyGet fs "state".toList (.jstr "Unknown".toList) = .jstr st)
    (h2 : pyGet fs "location".toList (.jstr "Unknown".toList) = .jstr lo)
    (h3 : pyGet fs "department".toList (.jstr "Unknown Department".toList) = .jstr de)
    (h4 : pyGet fs "audit_conducted_year".toList (.jstr "Unknown".toList) = .jstr ay)
    (h5 : pyGet fs "financial_year".toList (.jstr "Unknown".toList) = .jstr fy) :
    extractFields (.jobj fs) =
      some ⟨(pyStripL st).asString, clean_location (pyStripL lo).asString,
        (pyStripL de).asString, (pyStripL ay).asString, (pyStripL fy).asString⟩ := by
  simp only [extractFields, h1, h2, h3, h4, h5, stripVal]

/-- Helper: a JSON parse fails at any fuel when the first non-whitespace
character cannot begin a JSON value. -/
theorem parseValue_none_of_bad_head (fuel : Nat) (cs : List Char) (c : Char) (r : List Char)
    (hd : cs.dropWhile jsonWs = c :: r) (hc : jsonStarter c = false) :
    parseValue fuel cs = none := by
  have hn : ¬ c = 'n' := by intro h; subst h; simp [jsonStarter] at hc
  have ht : ¬ c = 't' := by intro h; subst h; simp [jsonStarter] at hc
  have hf : ¬ c = 'f' := by intro h; subst h; simp [jsonStarter] at hc
  have hq : ¬ c = '"' := by intro h; subst h; simp [jsonStarter] at hc
  have hb : ¬ c = '[' := by intro h; subst h; simp [jsonStarter] at hc
  have hbr : ¬ c = '\x7b' := by intro h; subst h; simp [jsonStarter] at hc
  have hm : ¬ (c = '-' ∨ c.isDigit) := by
    rintro (h | h)
    · subst h; simp [jsonStarter] at hc
    · simp [jsonStarter, h] at hc
  cases fuel with
  | zero => rfl
  | succ fuel =>
    unfold parseValue
    rw [hd]
    simp only [if_neg hn, if_neg ht, if_neg hf, if_neg hq, if_neg hb, if_neg hbr, if_neg hm]

/-- Helper: prepending a suffix keeps the head produced by `dropWhile`. -/
theorem dropWhile_append_cons (p : Char → Bool) (a b : List Char) (c : Char) (r : List Char)
    (h : a.dropWhile p = c :: r) : (a ++ b).dropWhile p = c :: (r ++ b) := by
  rw [List.dropWhile_append, h]
  simp

/-- Helper: `json.loads` fails on any input whose prefix part starts (after
whitespace) with a character that cannot begin a JSON value. -/
theorem json_loads_chars_prose_none (p₁ : List Char) (c : Char) (tail : List Char)
    (hd : p₁.dropWhile jsonWs = c :: tail) (hc : jsonStarter c = false) (b : List Char) :
    json_loads_chars (p₁ ++ b) = none := by
  unfold json_loads_chars
  rw [parseValue_none_of_bad_head ((p₁ ++ b).length + 1) (p₁ ++ b) c (tail ++ b)
    (dropWhile_append_cons jsonWs p₁ b c tail hd) hc]

/-- Helper: `dropUntil` skips a block containing no matching character. -/
theorem dropUntil_append_none (p : Char → Bool) (a b : List Char)
    (h : ∀ x ∈ a, p x = false) : dropUntil p (a ++ b) = dropUntil p b := by
  induction a with
  | nil => rfl
  | cons c cs ih =>
    have hc := h c (by simp)
    simp only [List.cons_append, dropUntil, hc]
    exact ih fun x hx => h x (by simp [hx])

/-- Helper: `dropUntil` stops at a matching head. -/
theorem dropUntil_cons_pos (p : Char → Bool) (c : Char) (r : List Char) (h : p c = true) :
    dropUntil p (c :: r) = c :: r := by
  simp [dropUntil, h]

/-- Helper: the greedy brace regex extracts exactly the embedded block `o`
when nothing before it contains an opening brace and nothing after it
contains a closing brace. -/
theorem braceMatch_embed (p₁ o p₂ : List Char)
    (h1 : '\x7b' ∉ p₁) (h2 : '\x7d' ∉ p₂)
    (ho : o.head? = some '\x7b') (hl : o.getLast? = some '\x7d') :
    braceMatchL (p₁ ++ (o ++ p₂)) = some o := by
  obtain ⟨o', rfl⟩ : ∃ o', o = '\x7b' :: o' := by
    cases o with
    | nil => cases ho
    | cons a o' =>
      simp only [List.head?_cons, Option.some.injEq] at ho
      exact ⟨o', by rw [ho]⟩
  obtain ⟨w, hw⟩ : ∃ w, ('\x7b' :: o').reverse = '\x7d' :: w := by
    have := List.head?_reverse ('\x7b' :: o')
    rw [hl] at this
    cases hrev : ('\x7b' :: o').reverse with
    | nil => rw [hrev] at this; cases this
    | cons a w =>
      rw [hrev] at this
      simp only [List.head?_cons, Option.some.injEq] at this
      exact ⟨w, by rw [this]⟩
  unfold braceMatchL
  rw [dropUntil_append_none _ p₁ _ (fun x hx => by
    simp only [beq_eq_false_iff_ne, ne_eq]
    intro hxx
    exact h1 (hxx ▸ hx))]
  rw [List.cons_append]
  rw [dropUntil_cons_pos _ _ _ (by simp)]
  rw [show ('\x7b' :: (o' ++ p₂)).reverse = p₂.reverse ++ ('\x7b' :: o').reverse by simp]
  rw [dropUntil_append_none _ p₂.reverse _ (fun x hx => by
    simp only [beq_eq_false_iff_ne, ne_eq]
    intro hxx
    exact h2 (hxx ▸ (List.mem_reverse.mp hx)))]
  rw [hw, dropUntil_cons_pos _ _ _ (by simp), ← hw]
  simp

/-- C1: the parsing policy of metadata inference, for any non-empty document
text and any model reply.  (1) If the stripped reply parses strictly as a
JSON object, the five fields are taken from it, each missing key replaced by
its sentinel (that is what `pyGet`'s default argument does), stripped, the
location cleaned.  (2) If the strict parse fails, the first brace-delimited
substring (the span from the first `\x7b` to the last `\x7d`, which is what
the greedy regex search finds) is parsed instead and the five fields are
taken from it in the same way.  (3) If that also fails — no brace-delimited
substring, or one that does not parse — the sentinel tuple results.  (4) In
particular, for a reply consisting of a JSON object embedded in surrounding
prose — no opening brace before it, no closing brace after it, and prose
that starts with a character that cannot begin a JSON value — parsing
succeeds and extracts exactly the embedded brace-delimited object. -/
theorem c1_parse_policy (docText : String) (hne : docText ≠ "") (reply : String) :
    (∀ fs st lo de ay fy,
      json_loads_chars (pyStripL reply.toList) = some (.jobj fs) →
      pyGet fs "state".toList (.jstr "Unknown".toList) = .jstr st →
      pyGet fs "location".toList (.jstr "Unknown".toList) = .jstr lo →
      pyGet fs "department".toList (.jstr "Unknown Department".toList) = .jstr de →
      pyGet fs "audit_conducted_year".toList (.jstr "Unknown".toList) = .jstr ay →
      pyGet fs "financial_year".toList (.jstr "Unknown".toList) = .jstr fy →
      analyze_ir_content docText (.ok reply) =
        (⟨(pyStripL st).asString, clean_location (pyStripL lo).asString, (pyStripL de).asString,
          (pyStripL ay).asString, (pyStripL fy).asString⟩, true)) ∧
    (∀ sub fs st lo de ay fy,
      json_loads_chars (pyStripL reply.toList) = none →
      braceMatchL (pyStripL reply.toList) = some sub →
      json_loads_chars sub = some (.jobj fs) →
      pyGet fs "state".toList (.jstr "Unknown".toList) = .jstr st →
      pyGet fs "location".toList (.jstr "Unknown".toList) = .jstr lo →
      pyGet fs "department".toList (.jstr "Unknown Department".toList) = .jstr de →
      pyGet fs "audit_conducted_year".toList (.jstr "Unknown".toList) = .jstr ay →
      pyGet fs "financial_year".toList (.jstr "Unknown".toList) = .jstr fy →
      analyze_ir_content docText (.ok reply) =
        (⟨(pyStripL st).asString, clean_location (pyStripL lo).asString, (pyStripL de).asString,
          (pyStripL ay).asString, (pyStripL fy).asString⟩, true)) ∧
    (json_loads_chars (pyStripL reply.toList) = none →
      (∀ sub, braceMatchL (pyStripL reply.toList) = some sub → json_loads_chars sub = none) →
      analyze_ir_content docText (.ok reply) = (defaults, true)) ∧
    (∀ p₁ o p₂ c tail fs st lo de ay fy,
      pyStripL reply.toList = p₁ ++ (o ++ p₂) →
      '\x7b' ∉ p₁ → '\x7d' ∉ p₂ →
      p₁.dropWhile jsonWs = c :: tail → jsonStarter c = false →
      o.head? = some '\x7b' → o.getLast? = some '\x7d' →
      json_loads_chars o = some (.jobj fs) →
      pyGet fs "state".toList (.jstr "Unknown".toList) = .jstr st →
      pyGet fs "location".toList (.jstr "Unknown".toList) = .jstr lo →
      pyGet fs "department".toList (.jstr "Unknown Department".toList) = .jstr de →
      pyGet fs "audit_conducted_year".toList (.jstr "Unknown".toList) = .jstr ay →
      pyGet fs "financial_year".toList (.jstr "Unknown".toList) = .jstr fy →
      analyze_ir_content docText (.ok reply) =
        (⟨(pyStripL st).asString, clean_location (pyStripL lo).asString, (pyStripL de).asString,
          (pyStripL ay).asString, (pyStripL fy).asString⟩, true)) := by
  refine ⟨?_, ?_, ?_, ?_⟩
  · intro fs st lo de ay fy hparse h1 h2 h3 h4 h5
    rw [analyze_ok_strict docText reply hne _ hparse,
      extractFields_strs fs st lo de ay fy h1 h2 h3 h4 h5]
    rfl
  · intro sub fs st lo de ay fy hn hb hparse h1 h2 h3 h4 h5
    rw [analyze_ok_fallback docText reply hne sub _ hn hb hparse,
      extractFields_strs fs st lo de ay fy h1 h2 h3 h4 h5]
    rfl
  · intro hn hall
    exact analyze_ok_failall docText reply hne hn hall
  · intro p₁ o p₂ c tail fs st lo de ay fy hsplit hp₁ hp₂ hws hc hoh hol hparse h1 h2 h3 h4 h5
    have hn : json_loads_chars (pyStripL reply.toList) = none := by
      rw [hsplit]
      exact json_loads_chars_prose_none p₁ c tail hws hc (o ++ p₂)
    have hb : braceMatchL (pyStripL reply.toList) = some o := by
      rw [hsplit]
      exact braceMatch_embed p₁ o p₂ hp₁ hp₂ hoh hol
    rw [analyze_ok_fallback docText reply hne o _ hn hb hparse,
      extractFields_strs fs st lo de ay fy h1 h2 h3 h4 h5]
    rfl

/-- C1 witness: a reply with the JSON object embedded in prose; the strict
parse fails, the brace-delimited substring parses, the missing keys take
their sentinels, and the present key is returned. -/
theorem c1_parse_policy_witness :
    analyze_ir_content "doc"
        (.ok "Here it is: \x7b\"state\": \"Kerala\"\x7d thanks") =
      (⟨"Kerala", "Unknown", "Unknown Department", "Unknown", "Unknown"⟩, true) := by
  have h := (c1_parse_policy "doc" (by decide)
      "Here it is: \x7b\"state\": \"Kerala\"\x7d thanks").2.2.2
      "Here it is: ".toList "\x7b\"state\": \"Kerala\"\x7d".toList " thanks".toList
      'H' "ere it is: ".toList
      [("state".toList, JVal.jstr "Kerala".toList)]
      "Kerala".toList "Unknown".toList "Unknown Department".toList "Unknown".toList
      "Unknown".toList
      (by decide) (by decide) (by decide) (by decide) (by decide)
      (by decide) (by decide) rfl rfl rfl rfl rfl rfl
  rw [h]
  decide

/-- Helper: every path/name pair the walk loop processes passes the
case-insensitive extension filter. -/
theorem walkDocx_isDocx (root : String) (t : DirTree) (pf : String × String)
    (h : pf ∈ walkDocx root t) : isDocx pf.2 = true := by
  simp only [walkDocx, List.mem_flatMap] at h
  obtain ⟨p, _, hpf⟩ := h
  simp only [List.mem_map] at hpf
  obtain ⟨f, hf, rfl⟩ := hpf
  exact (List.mem_filter.mp hf).2

/-- Helper: a name ending in `.docx` is not the empty string. -/
theorem isDocx_ne_empty (f : String) (h : isDocx f = true) : f ≠ "" := by
  intro hf
  subst hf
  cases h

/-- Helper: the length of the table list written by the loop equals the
number of processed documents. -/
theorem mainLoop_length (env : String → Option (List String)) (model : String → ModelOutcome)
    (fs : List (String × String)) (acc : List Row) :
    (mainLoop env model fs acc).length = fs.length := by
  induction fs generalizing acc with
  | nil => rfl
  | cons pf rest ih => simp [mainLoop, ih]

/-- Helper: the `k`-th table written by the loop is the accumulator followed
by the rows of the first `k + 1` documents. -/
theorem mainLoop_get? (env : String → Option (List String)) (model : String → ModelOutcome)
    (fs : List (String × String)) (acc : List Row) (k : Nat) (hk : k < fs.length) :
    (mainLoop env model fs acc).get? k =
      some (acc ++ (fs.take (k + 1)).map (processFile env model)) := by
  induction fs generalizing acc k with
  | nil => cases hk
  | cons pf rest ih =>
    cases k with
    | zero => simp [mainLoop]
    | succ k =>
      have hk' : k < rest.length := by simpa using hk
      simp only [mainLoop, List.get?_cons_succ]
      rw [ih (acc ++ [processFile env model pf]) k hk']
      simp [List.take_succ_cons]

/-- Helper: the last table written by a non-empty loop holds the rows of all
the documents. -/
theorem mainLoop_getLast? (env : String → Option (List String)) (model : String → ModelOutcome)
    (fs : List (String × String)) (acc : List Row) (h : fs ≠ []) :
    (mainLoop env model fs acc).getLast? =
      some (acc ++ fs.map (processFile env model)) := by
  induction fs generalizing acc with
  | nil => exact absurd rfl h
  | cons pf rest ih =>
    cases rest with
    | nil => simp [mainLoop]
    | cons pf' rest' =>
      simp only [mainLoop]
      rw [List.getLast?_cons_cons]
      have := ih (acc ++ [processFile env model pf]) (by simp)
      simp only [mainLoop] at this
      rw [this]
      simp

/-- C2 counterexample: an input tree whose only `.docx` file sits in a
subdirectory.  A matching document exists in the tree, yet the driver writes
the single blank placeholder row (and no row for the document): the
emptiness guard uses the non-recursive `os.listdir` of the top folder, so
the claimed "blank row iff no matching document anywhere in the tree" is
false, as is "otherwise every matching document yields one result row". -/
theorem c2_enumeration_counterexample :
    main_process (fun _ => none) (fun _ => ModelOutcome.err) "in"
        (.mk [] [("sub", .mk ["a.docx"] [])]) = [[blankRow]] ∧
    walkDocx "in" (.mk [] [("sub", .mk ["a.docx"] [])]) ≠ [] := by
  constructor
  · rfl
  · decide

/-- C2 amended: the single blank placeholder row is the driver's entire
output iff no entry of the non-recursive top-level listing of the input
folder (file or subdirectory name) ends in `.docx` case-insensitively;
otherwise the recursive walk runs and the final results table has exactly
one row per matching file anywhere in the tree (a zero-row table when the
walk matches nothing, e.g. when only a directory name matched the guard). -/
theorem c2_enumeration_amended (env : String → Option (List String))
    (model : String → ModelOutcome) (root : String) (t : DirTree) :
    (main_process env model root t = [[blankRow]] ↔
      (listdirEntries t).filter isDocx = []) ∧
    ((listdirEntries t).filter isDocx ≠ [] →
      (main_process env model root t).getLast? =
        some ((walkDocx root t).map (processFile env model))) := by
  constructor
  · constructor
    · intro h
      by_contra hne
      rw [main_process, if_neg hne] at h
      cases hfs : walkDocx root t with
      | nil =>
        rw [hfs] at h
        simp [mainLoop] at h
      | cons pf rest =>
        rw [hfs] at h
        simp only [mainLoop, if_neg (List.cons_ne_nil pf rest), List.append_nil,
          List.nil_append] at h
        have hhead : ([] : List Row) ++ [processFile env model pf] = [blankRow] := by
          have := congrArg List.head? h
          simpa using this
        have hrow : processFile env model pf = blankRow := by simpa using hhead
        have hdocx : isDocx pf.2 = true :=
          walkDocx_isDocx root t pf (hfs ▸ List.mem_cons_self pf rest)
        have hne2 : pf.2 ≠ "" := isDocx_ne_empty pf.2 hdocx
        apply hne2
        have := congrArg Row.filename hrow
        simpa [processFile, blankRow] using this
    · intro h
      rw [main_process, if_pos h]
  · intro hne
    rw [main_process, if_neg hne]
    cases hfs : walkDocx root t with
    | nil => simp [mainLoop]
    | cons pf rest =>
      rw [if_neg (by simp), List.append_nil]
      exact mainLoop_getLast? env model (pf :: rest) [] (by simp)

/-- C2 amended witness: one top-level document and one in a subdirectory;
the guard passes and the final table has one row per document. -/
theorem c2_enumeration_amended_witness :
    (main_process (fun _ => none) (fun _ => ModelOutcome.err) "in"
        (.mk ["a.DOCX"] [("sub", .mk ["b.docx"] [])])).getLast? =
      some
        [⟨"a.DOCX", "Unknown", "Unknown", "Unknown Department", "Unknown", "Unknown"⟩,
         ⟨"b.docx", "Unknown", "Unknown", "Unknown Department", "Unknown", "Unknown"⟩] := by
  have h := (c2_enumeration_amended (fun _ => none) (fun _ => ModelOutcome.err) "in"
      (.mk ["a.DOCX"] [("sub", .mk ["b.docx"] [])])).2 (by decide)
  rw [h]
  rfl

/-- C7: while documents are being processed, the `k`-th write to the results
file is exactly the table of the first `k + 1` processed documents: the
whole accumulated table is persisted after each document, before the next
one starts, so the on-disk file never lags more than one document behind. -/
theorem c7_persistence (env : String → Option (List String))
    (model : String → ModelOutcome) (root : String) (t : DirTree) (k : Nat)
    (hne : (listdirEntries t).filter isDocx ≠ [])
    (hk : k < (walkDocx root t).length) :
    (main_process env model root t).get? k =
      some (((walkDocx root t).take (k + 1)).map (processFile env model)) := by
  rw [main_process, if_neg hne]
  have hfs : walkDocx root t ≠ [] := by
    intro h
    rw [h] at hk
    cases hk
  rw [if_neg hfs, List.append_nil]
  have := mainLoop_get? env model (walkDocx root t) [] k hk
  rw [this]
  simp

/-- C7 witness: with two documents, the first write holds exactly the first
document's row. -/
theorem c7_persistence_witness :
    (main_process (fun _ => none) (fun _ => ModelOutcome.err) "in"
        (.mk ["a.docx", "b.docx"] [])).get? 0 =
      some [⟨"a.docx", "Unknown", "Unknown", "Unknown Department", "Unknown", "Unknown"⟩] := by
  have h := c7_persistence (fun _ => none) (fun _ => ModelOutcome.err) "in"
      (.mk ["a.docx", "b.docx"] []) 0 (by decide) (by decide)
  rw [h]
  rfl

/-- Helper: membership in `sorted(set(xs))` is membership in `xs`. -/
theorem mem_sortDedup (s : String) (xs : List String) :
    s ∈ sortDedup xs ↔ s ∈ xs := by
  unfold sortDedup
  rw [(List.perm_insertionSort (· ≤ ·) xs.dedup).mem_iff, List.mem_dedup]

/-- Helper: `sorted(set(xs))` is sorted. -/
theorem sorted_sortDedup (xs : List String) :
    List.Sorted (· ≤ ·) (sortDedup xs) :=
  List.sorted_insertionSort (· ≤ ·) xs.dedup

/-- C9: the reconciler's two sheets are exactly the asymmetric differences
of the stem sets (input-folder `.docx` names versus the results file's first
column), each sorted, and the copied files are exactly the input files whose
stem landed in the missing sheet; on the spec's example (input stems A, B, C
against result stems B, C, D) the sheets are [A] and [D] and only `A.docx`
is copied. -/
theorem c9_reconciler (inp res : List String) :
    (∀ s, s ∈ (reconciler inp res).1 ↔
      s ∈ (inp.filter endsDocxCS).map splitextStem ∧ s ∉ res.map splitextStem) ∧
    (∀ s, s ∈ (reconciler inp res).2.1 ↔
      s ∈ res.map splitextStem ∧ s ∉ (inp.filter endsDocxCS).map splitextStem) ∧
    List.Sorted (· ≤ ·) (reconciler inp res).1 ∧
    List.Sorted (· ≤ ·) (reconciler inp res).2.1 ∧
    (∀ f, f ∈ (reconciler inp res).2.2 ↔
      f ∈ inp.filter endsDocxCS ∧ splitextStem f ∈ (reconciler inp res).1) ∧
    reconciler ["A.docx", "B.docx", "C.docx"] ["B.docx", "C.docx", "D.docx"] =
      (["A"], ["D"], ["A.docx"]) := by
  refine ⟨?_, ?_, sorted_sortDedup _, sorted_sortDedup _, ?_, ?_⟩
  · intro s
    rw [show (reconciler inp res).1 =
      sortDedup (((inp.filter endsDocxCS).map splitextStem).filter
        fun s => s ∉ res.map splitextStem) from rfl]
    rw [mem_sortDedup, List.mem_filter]
    simp
  · intro s
    rw [show (reconciler inp res).2.1 =
      sortDedup ((res.map splitextStem).filter
        fun s => s ∉ (inp.filter endsDocxCS).map splitextStem) from rfl]
    rw [mem_sortDedup, List.mem_filter]
    simp
  · intro f
    rw [show (reconciler inp res).2.2 =
      (inp.filter endsDocxCS).filter
        (fun f => splitextStem f ∈ (reconciler inp res).1) from rfl]
    rw [List.mem_filter]
    simp
  · decide

/-- Helper: no roadway token can match at a newline. -/
theorem tryMatch_newline (b : Bool) (cs : List Char) : tryMatch b ('\n' :: cs) = none := by
  cases b with
  | false => rfl
  | true =>
    simp [tryMatch, roadTokens, roadCond, List.findSome?, List.take_succ_cons]

/-- Helper: the skipping scan deletes a whole newline-free block. -/
theorem cleanScan_skip_nonl (b : Bool) (x : List Char) (h : '\n' ∉ x) :
    cleanScan b true x = [] := by
  induction x with
  | nil => rfl
  | cons c cs ih =>
    have hc : ¬ c = '\n' := fun hh => h (hh ▸ List.mem_cons_self c cs)
    simp only [cleanScan, if_neg hc]
    exact ih fun hx => h (List.mem_cons_of_mem c hx)

/-- Helper: the skipping scan deletes up to the next newline, keeps it, and
resumes cleanly there. -/
theorem cleanScan_skip_append (b : Bool) (x rest : List Char) (h : '\n' ∉ x) :
    cleanScan b true (x ++ '\n' :: rest) = '\n' :: cleanScan true false rest := by
  induction x with
  | nil => simp [cleanScan]
  | cons c cs ih =>
    have hc : ¬ c = '\n' := fun hh => h (hh ▸ List.mem_cons_self c cs)
    simp only [List.cons_append, cleanScan, if_neg hc]
    exact ih fun hx => h (List.mem_cons_of_mem c hx)

/-- Helper: whether a roadway token matches at the head is unaffected by
text lying beyond the next newline. -/
theorem roadCond_append_newline (l r t : List Char) (hnl : '\n' ∉ t) :
    roadCond (l ++ '\n' :: r) t = roadCond l t := by
  rcases Nat.lt_or_ge l.length t.length with hlt | hge
  · have hL : (((l ++ '\n' :: r).take t.length).map Char.toLower == t) = false := by
      rw [beq_eq_false_iff_ne]
      intro heq
      apply hnl
      have hmem : '\n' ∈ (l ++ '\n' :: r).take t.length := by
        rw [List.take_append_eq_append_take,
          show t.length - l.length = (t.length - l.length - 1) + 1 by omega,
          List.take_succ_cons]
        exact List.mem_append_right _ (List.mem_cons_self _ _)
      have : Char.toLower '\n' ∈ ((l ++ '\n' :: r).take t.length).map Char.toLower :=
        List.mem_map_of_mem Char.toLower hmem
      rw [heq] at this
      simpa using this
    have hR : ((l.take t.length).map Char.toLower == t) = false := by
      rw [beq_eq_false_iff_ne]
      intro heq
      have := congrArg List.length heq
      rw [List.length_map, List.take_of_length_le (by omega)] at this
      omega
    simp only [roadCond, hL, hR, Bool.false_and]
  · have hTake : (l ++ '\n' :: r).take t.length = l.take t.length :=
      List.take_append_of_le_length hge
    have hDrop : (l ++ '\n' :: r).drop t.length = l.drop t.length ++ '\n' :: r :=
      List.drop_append_of_le_length hge
    simp only [roadCond, hTake, boundaryAfter, hDrop]
    cases hd : l.drop t.length with
    | nil => simp [show isWordChar '\n' = false from rfl]
    | cons d ds => simp

/-- Helper: a roadway-token match attempt is unaffected by text lying beyond
the next newline. -/
theorem tryMatch_append_newline (b : Bool) (l r : List Char) :
    tryMatch b (l ++ '\n' :: r) = tryMatch b l := by
  cases b with
  | false => rfl
  | true =>
    simp only [tryMatch, if_pos rfl, roadTokens, List.findSome?_cons, List.findSome?_nil]
    rw [roadCond_append_newline l r "highway".toList (by decide),
      roadCond_append_newline l r "road".toList (by decide),
      roadCond_append_newline l r "street".toList (by decide),
      roadCond_append_newline l r "main".toList (by decide),
      roadCond_append_newline l r "lane".toList (by decide)]

/-- Helper: the regex scan factors through newlines: the part of the input
before a newline is processed on its own, the newline is kept, and the scan
restarts (at a word boundary, outside any deleted span) after it. -/
theorem cleanScan_append_newline (b : Bool) (pre rest : List Char) (h : '\n' ∉ pre) :
    cleanScan b false (pre ++ '\n' :: rest) =
      cleanScan b false pre ++ '\n' :: cleanScan true false rest := by
  induction pre generalizing b with
  | nil =>
    simp only [List.nil_append, cleanScan, tryMatch_newline]
    rfl
  | cons c pre' ih =>
    have h' : '\n' ∉ pre' := fun hx => h (List.mem_cons_of_mem c hx)
    have hTM : tryMatch b (c :: (pre' ++ '\n' :: rest)) = tryMatch b (c :: pre') := by
      rw [← List.cons_append]
      exact tryMatch_append_newline b (c :: pre') rest
    simp only [List.cons_append, cleanScan, List.append_eq, Bool.false_eq_true, if_false, hTM]
    cases hm : tryMatch b (c :: pre') with
    | some n =>
      simp only [hm]
      rw [cleanScan_skip_append b pre' rest h', cleanScan_skip_nonl b pre' h']
      rfl
    | none =>
      simp only [hm]
      rw [ih (!isWordChar c) h']
      rfl

/-- Helper: the boundary flag after a non-empty prefix depends only on the
prefix's last character. -/
theorem junctionFlag_cons (b : Bool) (c : Char) (u : List Char) :
    junctionFlag b (c :: u) = junctionFlag (!isWordChar c) u := by
  cases u with
  | nil => rfl
  | cons d u' =>
    unfold junctionFlag
    rw [List.getLast?_cons_cons]
    cases hg : (d :: u').getLast? with
    | none => simp at hg
    | some e => rfl

/-- Helper: on a newline-free segment the scan either matches no roadway
token at any split point and keeps the segment, or splits it at the first
whole-word token match — no earlier split point admits a match — and keeps
only the prefix. -/
theorem cleanScan_line (cs : List Char) : ∀ b, '\n' ∉ cs →
    (cleanScan b false cs = cs ∧
      ∀ u rest, cs = u ++ rest → tryMatch (junctionFlag b u) rest = none) ∨
      ∃ u rest, cs = u ++ rest ∧ (tryMatch (junctionFlag b u) rest).isSome ∧
        (∀ u' rest', cs = u' ++ rest' → u'.length < u.length →
          tryMatch (junctionFlag b u') rest' = none) ∧
        cleanScan b false cs = u := by
  induction cs with
  | nil =>
    intro b h
    left
    refine ⟨rfl, ?_⟩
    intro u rest hsplit
    obtain ⟨rfl, rfl⟩ := List.append_eq_nil.mp hsplit.symm
    cases b <;> rfl
  | cons c cs' ih =>
    intro b h
    have h' : '\n' ∉ cs' := fun hx => h (List.mem_cons_of_mem c hx)
    cases hm : tryMatch b (c :: cs') with
    | some n =>
      right
      refine ⟨[], c :: cs', rfl, ?_, ?_, ?_⟩
      · rw [show junctionFlag b [] = b from rfl, hm]
        rfl
      · intro u' rest' hsplit' hlt
        simp at hlt
      · simp only [cleanScan, hm, Bool.false_eq_true, if_false]
        exact cleanScan_skip_nonl b cs' h'
    | none =>
      rcases ih (!isWordChar c) h' with ⟨heq, hnone⟩ | ⟨u, rest, hsplit, hms, hmin, hout⟩
      · left
        constructor
        · simp only [cleanScan, hm, heq, Bool.false_eq_true, if_false]
        · intro u rest hsplit
          cases u with
          | nil =>
            simp only [List.nil_append] at hsplit
            rw [show junctionFlag b [] = b from rfl, ← hsplit]
            exact hm
          | cons c'' u'' =>
            rw [List.cons_append] at hsplit
            injection hsplit with h1 h2
            subst h1
            rw [junctionFlag_cons]
            exact hnone u'' rest h2
      · right
        refine ⟨c :: u, rest, by rw [List.cons_append, ← hsplit], ?_, ?_, ?_⟩
        · rwa [junctionFlag_cons]
        · intro u' rest' hsplit' hlt
          cases u' with
          | nil =>
            simp only [List.nil_append] at hsplit'
            rw [show junctionFlag b [] = b from rfl, ← hsplit']
            exact hm
          | cons c'' u'' =>
            rw [List.cons_append] at hsplit'
            injection hsplit' with h1 h2
            subst h1
            rw [junctionFlag_cons]
            have hlt' : u''.length < u.length := by simpa using hlt
            exact hmin u'' rest' h2 hlt'
        · simp only [cleanScan, hm, hout, Bool.false_eq_true, if_false]

/-- Helper: `splitNL` never produces an empty list of segments. -/
theorem splitNL_ne_nil (cs : List Char) : splitNL cs ≠ [] := by
  cases cs with
  | nil => simp [splitNL]
  | cons c cs' =>
    unfold splitNL
    by_cases h : c = '\n'
    · simp [h]
    · rw [if_neg h]
      cases splitNL cs' with
      | nil => simp
      | cons l ls => simp

/-- Helper: one unfolding step of `splitNL`. -/
theorem splitNL_cons (c : Char) (cs : List Char) :
    splitNL (c :: cs) = if c = '\n' then [] :: splitNL cs
      else match splitNL cs with | [] => [[c]] | l :: ls => (c :: l) :: ls := rfl

/-- Helper: either the input has no newline and is its own single segment,
or it splits at its first newline. -/
theorem splitNL_first (cs : List Char) :
    ('\n' ∉ cs ∧ splitNL cs = [cs]) ∨
      ∃ pre post, cs = pre ++ '\n' :: post ∧ '\n' ∉ pre ∧
        splitNL cs = pre :: splitNL post := by
  induction cs with
  | nil => left; exact ⟨by simp, rfl⟩
  | cons c cs' ih =>
    by_cases hc : c = '\n'
    · right
      refine ⟨[], cs', by rw [hc]; rfl, by simp, ?_⟩
      rw [splitNL_cons, if_pos hc]
    · rcases ih with ⟨h1, h2⟩ | ⟨pre, post, hsplit, hpre, heq⟩
      · left
        refine ⟨?_, ?_⟩
        · intro hmem
          rcases List.mem_cons.mp hmem with h | h
          · exact hc h.symm
          · exact h1 h
        · rw [splitNL_cons, if_neg hc, h2]
      · right
        refine ⟨c :: pre, post, by rw [hsplit, List.cons_append], ?_, ?_⟩
        · intro hmem
          rcases List.mem_cons.mp hmem with h | h
          · exact hc h.symm
          · exact hpre h
        · rw [splitNL_cons, if_neg hc, heq]

/-- Helper: no segment produced by `splitNL` contains a newline. -/
theorem splitNL_no_newline (cs : List Char) : ∀ l ∈ splitNL cs, '\n' ∉ l := by
  induction cs with
  | nil =>
    intro l hl
    simp [splitNL] at hl
    simp [hl]
  | cons c cs' ih =>
    intro l hl
    rw [splitNL_cons] at hl
    by_cases hc : c = '\n'
    · rw [if_pos hc] at hl
      rcases List.mem_cons.mp hl with rfl | hl'
      · simp
      · exact ih l hl'
    · rw [if_neg hc] at hl
      cases hsp : splitNL cs' with
      | nil => exact absurd hsp (splitNL_ne_nil cs')
      | cons l₀ ls =>
        rw [hsp] at hl
        rcases List.mem_cons.mp hl with rfl | hl'
        · intro hmem
          rcases List.mem_cons.mp hmem with h | h
          · exact hc h.symm
          · exact ih l₀ (hsp ▸ List.mem_cons_self l₀ ls) h
        · exact ih l (hsp ▸ List.mem_cons_of_mem l₀ hl')

/-- Helper: joining a non-singleton head back on. -/
theorem intercalateNL_cons (l : List Char) (ls : List (List Char)) (h : ls ≠ []) :
    intercalateNL (l :: ls) = l ++ '\n' :: intercalateNL ls := by
  cases ls with
  | nil => exact absurd rfl h
  | cons l' ls' => rfl

/-- Helper: the regex substitution processes the newline-separated segments
independently and rejoins them with the newlines kept. -/
theorem cleanLoc_splitNL (cs : List Char) :
    cleanLoc true cs = intercalateNL ((splitNL cs).map (cleanLoc true)) := by
  suffices h : ∀ (n : Nat) (cs : List Char), cs.length ≤ n →
      cleanLoc true cs = intercalateNL ((splitNL cs).map (cleanLoc true)) from
    h cs.length cs le_rfl
  intro n
  induction n with
  | zero =>
    intro cs hcs
    have : cs = [] := List.length_eq_zero.mp (Nat.le_zero.mp hcs)
    subst this
    rfl
  | succ n ih =>
    intro cs hcs
    rcases splitNL_first cs with ⟨hnl, heq⟩ | ⟨pre, post, hsplit, hpre, heq⟩
    · rw [heq]
      rfl
    · rw [heq, hsplit]
      rw [show cleanLoc true (pre ++ '\n' :: post) = cleanScan true false (pre ++ '\n' :: post)
        from rfl]
      rw [cleanScan_append_newline true pre post hpre]
      rw [List.map_cons,
        intercalateNL_cons _ _ (by
          intro hmap
          exact splitNL_ne_nil post (List.map_eq_nil_iff.mp hmap))]
      rw [← ih post (by
        have := congrArg List.length hsplit
        simp [List.length_append] at this
        omega)]
      rfl

/-- Helper: `takeWhile` keeps a block of satisfying elements and stops at
the first failing one. -/
theorem takeWhile_block (p : Char → Bool) (xs : List Char) (y : Char) (ys : List Char)
    (hxs : ∀ x ∈ xs, p x = true) (hy : p y = false) :
    (xs ++ y :: ys).takeWhile p = xs := by
  induction xs with
  | nil => simp [List.takeWhile, hy]
  | cons x xs' ih =>
    have hx := hxs x (by simp)
    simp only [List.cons_append, List.takeWhile, hx, List.append_eq]
    rw [ih fun z hz => hxs z (by simp [hz])]

/-- Helper: `split(",")[-1]` keeps exactly the text after the last comma. -/
theorem afterLastComma_append (a b : List Char) (hb : ',' ∉ b) :
    afterLastComma (a ++ ',' :: b) = b := by
  unfold afterLastComma
  rw [show (a ++ ',' :: b).reverse = b.reverse ++ ',' :: a.reverse by simp]
  rw [takeWhile_block _ b.reverse ',' a.reverse
    (fun x hx => by
      simp only [Bool.not_eq_eq_eq_not, Bool.not_true, beq_eq_false_iff_ne, ne_eq]
      intro hxx
      exact hb (hxx ▸ List.mem_reverse.mp hx))
    (by simp)]
  exact List.reverse_reverse b

/-- Helper: pointwise construction of `Forall₂` against a mapped list. -/
theorem forall₂_map_self (P : List Char → List Char → Prop) (f : List Char → List Char)
    (l : List (List Char)) (h : ∀ x ∈ l, P x (f x)) : List.Forall₂ P l (l.map f) := by
  induction l with
  | nil => exact List.Forall₂.nil
  | cons x xs ih =>
    exact List.Forall₂.cons (h x (by simp)) (ih fun z hz => h z (by simp [hz]))

/-- C3 counterexample: the claim says the roadway token and everything after
it is removed, so `"Main\nX"` would clean to `""`; the code's regex `.*`
does not cross the newline, so the `X` on the second line survives and the
result is `"X"`. -/
theorem c3_location_counterexample :
    clean_location "Main\nX" = "X" ∧ ("X" : String) ≠ "" := by
  constructor
  · decide
  · decide

/-- C3 amended: for a location containing a comma the result is exactly the
text after the last comma, stripped.  Otherwise removal is per line: the
input splits into its newline-separated segments, each segment either has no
whole-word roadway-token match and is kept, or is cut at the first such
match (the token, and the rest of that segment only, are dropped); the
segments are rejoined with their newlines and the whole result is stripped.
The two spec examples evaluate as stated. -/
theorem c3_location_amended :
    (∀ a b : List Char, ',' ∉ b →
      clean_location (a ++ ',' :: b).asString = (pyStripL b).asString) ∧
    (∀ s : String, s.toList ≠ [] → ',' ∉ s.toList →
      ∃ outs, List.Forall₂ roadClauseRemoved (splitNL s.toList) outs ∧
        clean_location s = (pyStripL (intercalateNL outs)).asString) ∧
    clean_location "123 Main Road, Springfield" = "Springfield" ∧
    clean_location "MG Road Extension" = "MG" := by
  refine ⟨?_, ?_, by decide, by decide⟩
  · intro a b hb
    have htl : (a ++ ',' :: b).asString.toList = a ++ ',' :: b := rfl
    unfold clean_location
    rw [htl]
    rw [if_neg (by simp), if_pos (by simp)]
    rw [afterLastComma_append a b hb]
  · intro s hne hcomma
    refine ⟨(splitNL s.toList).map (cleanLoc true), ?_, ?_⟩
    · refine forall₂_map_self _ _ _ fun line hline => ?_
      have hnl := splitNL_no_newline s.toList line hline
      exact cleanScan_line line true hnl
    · unfold clean_location
      rw [if_neg hne, if_neg hcomma, cleanLoc_splitNL]

/-- C3 amended witness: the comma clause evaluated on the spec's own
example decomposition. -/
theorem c3_location_amended_witness :
    clean_location ("123 Main Road".toList ++ ',' :: " Springfield".toList).asString =
      "Springfield" := by
  have h := c3_location_amended.1 "123 Main Road".toList " Springfield".toList (by decide)
  rw [h]
  decide

/-- C9 witness: on the spec's example, `A` is reported missing. -/
theorem c9_reconciler_witness :
    "A" ∈ (reconciler ["A.docx", "B.docx", "C.docx"] ["B.docx", "C.docx", "D.docx"]).1 := by
  have h := (c9_reconciler ["A.docx", "B.docx", "C.docx"] ["B.docx", "C.docx", "D.docx"]).1 "A"
  exact h.mpr (by decide)
